import Mathlib

/-!
Verification development for the Markdown intelligence subsystem of the
`text-tool` repository: the Outline Extractor (`parse_outline` /
`nest_entries` in `src/app/file_manager.rs`), the Block Renderer
(`render_markdown` and its helpers in `src/app/panel/markdown.rs`), and the
Inline Tokenizer (`build_inline_job` in the same file).

Text is modelled as `List Char` (a Rust `&str` is a sequence of Unicode
scalar values); the inline tokenizer, which the source runs over the raw
UTF-8 bytes of the line, is modelled over `List Nat` (the byte sequence),
with an explicit UTF-8 encoder connecting the two views.
-/

namespace TextTool

/-- Whitespace predicate matching Rust's `char::is_whitespace`
(the Unicode White_Space property). -/
def isRustWS (c : Char) : Bool :=
  let n := c.toNat
  (9 ≤ n && n ≤ 13) || n = 32 || n = 133 || n = 160 || n = 5760 ||
    (8192 ≤ n && n ≤ 8202) || n = 8232 || n = 8233 || n = 8239 || n = 8287 ||
    n = 12288

/-- Rust `str::trim_start`. -/
def rustTrimStart (l : List Char) : List Char := l.dropWhile isRustWS

/-- Rust `str::trim_end`. -/
def rustTrimEnd (l : List Char) : List Char :=
  (l.reverse.dropWhile isRustWS).reverse

/-- Rust `str::trim`. -/
def rustTrim (l : List Char) : List Char := rustTrimEnd (rustTrimStart l)

/-- Helper for `rustLines`: split the remaining characters at newline
characters, `acc` holding the current (reversed) line.  A line that was
terminated by a newline has a trailing carriage return stripped, and a final
newline produces no extra empty line, matching Rust `str::lines`. -/
def linesGo : List Char → List Char → List (List Char)
  | [], acc => [acc.reverse]
  | c :: rest, acc =>
    if c = '\n' then
      (if acc.head? = some '\r' then acc.tail else acc).reverse ::
        (if rest.isEmpty then [] else linesGo rest [])
    else
      linesGo rest (c :: acc)

/-- Rust `str::lines`: the empty string has no lines. -/
def rustLines (s : List Char) : List (List Char) :=
  if s.isEmpty then [] else linesGo s []

/-- Rust `str::strip_prefix` (by pattern `pre`). -/
def dropPre (pre l : List Char) : Option (List Char) :=
  if pre.isPrefixOf l then some (l.drop pre.length) else none

/-- A run of `n` hash characters, the ATX heading marker. -/
def hashes (n : Nat) : List Char := List.replicate n '#'

/-- Per-line heading classification of `parse_outline`
(`src/app/file_manager.rs` lines 59-73): the `#`-prefix branches are tried
from longest (`######`) to shortest; only the single-`#` branch additionally
requires the remainder to start with a space or be empty. -/
def headingEntry (line : List Char) : Option (Nat × List Char) :=
  if (hashes 6).isPrefixOf line then some (6, rustTrim (line.drop 6))
  else if (hashes 5).isPrefixOf line then some (5, rustTrim (line.drop 5))
  else if (hashes 4).isPrefixOf line then some (4, rustTrim (line.drop 4))
  else if (hashes 3).isPrefixOf line then some (3, rustTrim (line.drop 3))
  else if (hashes 2).isPrefixOf line then some (2, rustTrim (line.drop 2))
  else if (hashes 1).isPrefixOf line then
    (if (line.drop 1).head? = some ' ' || (line.drop 1).isEmpty then
      some (1, rustTrim (line.drop 1))
    else none)
  else none

/-- The flat `(level, title)` list that `parse_outline` builds before
nesting (`src/app/file_manager.rs` lines 57-74). -/
def flatHeadings (markdown : List Char) : List (Nat × List Char) :=
  (rustLines markdown).filterMap headingEntry

/-- Outline tree node, mirroring `OutlineEntry` in
`src/app/file_manager.rs`. -/
inductive OutlineEntry : Type where
  | mk (level : Nat) (title : List Char) (children : List OutlineEntry) :
      OutlineEntry

/-- Level component of an outline node. -/
def OutlineEntry.level : OutlineEntry → Nat
  | .mk l _ _ => l

/-- Title component of an outline node. -/
def OutlineEntry.title : OutlineEntry → List Char
  | .mk _ t _ => t

/-- Children of an outline node. -/
def OutlineEntry.children : OutlineEntry → List OutlineEntry
  | .mk _ _ c => c

/-- Fuelled translation of `nest_entries` (`src/app/file_manager.rs` lines
78-104).  The source loop scans forward from a matching entry to the next
entry of level ≤ `depth` (`takeWhile` / `dropWhile` capture the index scan
`j`), recurses on the run in between at `depth + 1`, skips deeper entries
with no opener, and stops at a shallower entry.  Fuel bounds the number of
loop iterations; `flat.length + 1` always suffices. -/
def nestF : Nat → List (Nat × List Char) → Nat → List OutlineEntry
  | 0, _, _ => []
  | _ + 1, [], _ => []
  | fuel + 1, (lvl, title) :: rest, depth =>
    if lvl = depth then
      OutlineEntry.mk depth title
          (nestF fuel (rest.takeWhile (fun e => depth < e.1)) (depth + 1)) ::
        nestF fuel (rest.dropWhile (fun e => depth < e.1)) depth
    else if depth < lvl then
      nestF fuel rest depth
    else
      []

/-- The `nest_entries` function of `src/app/file_manager.rs`. -/
def nest_entries (flat : List (Nat × List Char)) (depth : Nat) :
    List OutlineEntry :=
  nestF (flat.length + 1) flat depth

/-- The `parse_outline` function of `src/app/file_manager.rs`: parse
headings into a flat list, then nest starting at depth 1. -/
def parse_outline (markdown : List Char) : List OutlineEntry :=
  nest_entries (flatHeadings markdown) 1

/-- The spec's name (§6) for the outline entry point; the source function is
`parse_outline`. -/
def extract_outline (markdown : List Char) : List OutlineEntry :=
  parse_outline markdown

/-! ### Inline tokenizer (`build_inline_job`, `src/app/panel/markdown.rs`) -/

/-- UTF-8 encoding of a single Unicode scalar value. -/
def charUtf8 (n : Nat) : List Nat :=
  if n < 0x80 then [n]
  else if n < 0x800 then [0xC0 + n / 64, 0x80 + n % 64]
  else if n < 0x10000 then
    [0xE0 + n / 4096, 0x80 + n / 64 % 64, 0x80 + n % 64]
  else
    [0xF0 + n / 262144, 0x80 + n / 4096 % 64, 0x80 + n / 64 % 64,
      0x80 + n % 64]

/-- UTF-8 byte sequence of a string, the view `str::as_bytes` gives the
tokenizer. -/
def utf8Encode (s : List Char) : List Nat :=
  s.flatMap (fun c => charUtf8 c.toNat)

/-- Byte value of `*`. -/
def starB : Nat := 42

/-- Byte value of the inline-code marker. -/
def tickB : Nat := 96

/-- Style tag carried by a run of the inline tokenizer's output, standing
for the `TextFormat` each `job.append` call in `build_inline_job` uses. -/
inductive Style : Type where
  | plain : Style
  | bold : Style
  | italic : Style
  | code : Style
deriving DecidableEq

/-- One output run: its byte text and its style. -/
abbrev Run := List Nat × Style

/-- Scan for the closing `**` marker (`build_inline_job` lines 221-228): the
first adjacent pair of `*` bytes splits `bs` as `pre ++ [42, 42] ++ post`;
`none` when no such pair exists before the end of the line. -/
def splitBold : List Nat → Option (List Nat × List Nat)
  | [] => none
  | [_] => none
  | a :: b :: rest =>
    if a = starB ∧ b = starB then some ([], rest)
    else
      match splitBold (b :: rest) with
      | some (pre, post) => some (a :: pre, post)
      | none => none

/-- Scan for the next occurrence of byte `t` (`build_inline_job` lines
252-254 and 271-274): split `bs` as `pre ++ [t] ++ post`, or `none` when `t`
does not occur. -/
def splitByte (t : Nat) : List Nat → Option (List Nat × List Nat)
  | [] => none
  | a :: rest =>
    if a = t then some ([], rest)
    else
      match splitByte t rest with
      | some (pre, post) => some (a :: pre, post)
      | none => none

/-- Flush the pending plain-text accumulator (`flush_plain!` in
`build_inline_job`): `acc` holds, reversed, the bytes scanned since the last
marker; an empty accumulator emits nothing. -/
def flushA (acc : List Nat) (tail : List Run) : List Run :=
  if acc.isEmpty then tail else (acc.reverse, Style.plain) :: tail

/-- Bold/code/italic content run: empty content emits nothing
(`build_inline_job` lines 232, 257, 277). -/
def spanRun (content : List Nat) (s : Style) : List Run :=
  if content.isEmpty then [] else [(content, s)]

/-- Fuelled translation of the scanning loop of `build_inline_job`
(`src/app/panel/markdown.rs` lines 213-297), consuming the remaining bytes
from the front instead of moving an index `i`; `acc` is the pending plain
text (reversed).  Branches in source order: `**` (only when a second byte
exists), then a code tick, then a single `*`, then plain accumulation; an
unmatched `**` is emitted as two literal plain bytes and scanning resumes
right after them, unmatched tick/`*` consume the rest of the line.  Each
step consumes at least one byte, so fuel `len + 1` always suffices. -/
def inlineRuns : Nat → List Nat → List Nat → List Run
  | 0, acc, _ => flushA acc []
  | _ + 1, acc, [] => flushA acc []
  | fuel + 1, acc, b :: rest =>
    if b = starB ∧ rest.head? = some starB then
      match splitBold rest.tail with
      | some (content, after) =>
        flushA acc (spanRun content Style.bold ++ inlineRuns fuel [] after)
      | none =>
        flushA acc (([starB, starB], Style.plain) :: inlineRuns fuel [] rest.tail)
    else if b = tickB then
      match splitByte tickB rest with
      | some (content, after) =>
        flushA acc (spanRun content Style.code ++ inlineRuns fuel [] after)
      | none => flushA acc (spanRun rest Style.code)
    else if b = starB then
      match splitByte starB rest with
      | some (content, after) =>
        flushA acc (spanRun content Style.italic ++ inlineRuns fuel [] after)
      | none => flushA acc (spanRun rest Style.italic)
    else
      inlineRuns fuel (b :: acc) rest

/-- The `build_inline_job` function of `src/app/panel/markdown.rs`, as the
run sequence it appends to the `LayoutJob`. -/
def build_inline_job (bs : List Nat) : List Run :=
  inlineRuns (bs.length + 1) [] bs

/-- Concatenated text of a run sequence (`job.text` in the source tests). -/
def concatRuns (rs : List Run) : List Nat :=
  rs.flatMap Prod.fst

/-- Containment test used by the fast path of `render_inline_text`
(`src/app/panel/markdown.rs` lines 173-180): `text.contains("**") ||
text.contains('*') || text.contains('`')` in byte view. -/
def hasInlineMarker (bs : List Nat) : Bool :=
  bs.any (fun b => b = starB || b = tickB)

/-- The `render_inline_text` function of `src/app/panel/markdown.rs`, as a
run sequence: without any marker byte it emits one plain run over the whole
text (the fast path's single label), otherwise it runs the full scan. -/
def render_inline_text (bs : List Nat) : List Run :=
  if hasInlineMarker bs then build_inline_job bs else [(bs, Style.plain)]

/-! ### Block renderer (`render_markdown`, `src/app/panel/markdown.rs`) -/

/-- The `strip_heading` helper of `src/app/panel/markdown.rs` (lines
128-142): `n` leading `#` characters must be followed by a space (the rest
is then `trim_end`-ed) or by the end of the line. -/
def strip_heading (line : List Char) (n : Nat) : Option (List Char) :=
  if (hashes n).isPrefixOf line then
    if (line.drop n).head? = some ' ' then
      some (rustTrimEnd ((line.drop n).drop 1))
    else if (line.drop n).isEmpty then some []
    else none
  else none

/-- Heading classification of `render_markdown` (lines 61-77): the
`strip_heading` chain tried at levels 1 up to 6, first match wins. -/
def rendererHeading (line : List Char) : Option (Nat × List Char) :=
  match strip_heading line 1 with
  | some r => some (1, r)
  | none =>
  match strip_heading line 2 with
  | some r => some (2, r)
  | none =>
  match strip_heading line 3 with
  | some r => some (3, r)
  | none =>
  match strip_heading line 4 with
  | some r => some (4, r)
  | none =>
  match strip_heading line 5 with
  | some r => some (5, r)
  | none =>
  match strip_heading line 6 with
  | some r => some (6, r)
  | none => none

/-- The `is_horizontal_rule` helper of `src/app/panel/markdown.rs` (lines
145-156). -/
def is_horizontal_rule (line : List Char) : Bool :=
  let trimmed := rustTrim line
  if trimmed.length < 3 then false
  else
    match trimmed.head? with
    | none => false
    | some first =>
      (first = '-' || first = '*' || first = '_') &&
        trimmed.all (fun c => c = first || c = ' ') &&
        decide (3 ≤ (trimmed.filter (fun c => c = first)).length)

/-- Split at the first occurrence of the pattern `pat` (Rust `str::find` on
a substring pattern): `l = pre ++ pat ++ post`. -/
def splitSub (pat : List Char) : List Char → Option (List Char × List Char)
  | [] => if pat.isEmpty then some ([], []) else none
  | a :: rest =>
    if pat.isPrefixOf (a :: rest) then some ([], (a :: rest).drop pat.length)
    else
      match splitSub pat rest with
      | some (pre, post) => some (a :: pre, post)
      | none => none

/-- The `parse_ordered_item` helper of `src/app/panel/markdown.rs` (lines
159-167): split at the first `". "`; the left part must be nonempty and all
ASCII digits. -/
def parse_ordered_item (line : List Char) :
    Option (List Char × List Char) :=
  match splitSub ['.', ' '] line with
  | none => none
  | some (num, rest) =>
    if num.all (fun c => c.isDigit) && !num.isEmpty then some (num, rest)
    else none

/-- Visual block emitted by `render_markdown`, one constructor per emission
site; text that the source runs through `render_inline_text` is carried as
the run sequence of that call. -/
inductive Block : Type where
  | codeBlock (text : List Char) : Block
  | spacer : Block
  | heading (level : Nat) (text : List Char) : Block
  | rule : Block
  | quote (runs : List Run) : Block
  | ulist (runs : List Run) : Block
  | olist (num : List Char) (runs : List Run) : Block
  | para (runs : List Run) : Block
deriving DecidableEq

/-- Fence-boundary test of `render_markdown` line 23:
`line.trim_start().starts_with("```")`. -/
def isFenceLine (line : List Char) : Bool :=
  ("```".toList).isPrefixOf (rustTrimStart line)

/-- Classification of one line outside a code fence (`render_markdown`
lines 55-121, after the fence cases): blank, heading, horizontal rule,
blockquote, unordered list, ordered list, paragraph — first match wins,
exactly one block. -/
def classifyBlock (line : List Char) : Block :=
  if (rustTrim line).isEmpty then Block.spacer
  else
    match rendererHeading line with
    | some (n, rest) => Block.heading n rest
    | none =>
      if is_horizontal_rule line then Block.rule
      else
        match dropPre ('>' :: [' ']) line <|> dropPre ['>'] line with
        | some rest => Block.quote (render_inline_text (utf8Encode rest))
        | none =>
          match dropPre ('-' :: [' ']) line <|> dropPre ('*' :: [' ']) line
              <|> dropPre ('+' :: [' ']) line with
          | some rest => Block.ulist (render_inline_text (utf8Encode rest))
          | none =>
            match parse_ordered_item line with
            | some (num, rest) =>
              Block.olist num (render_inline_text (utf8Encode rest))
            | none => Block.para (render_inline_text (utf8Encode line))

/-- One iteration of the `render_markdown` loop body on state
`(in_code_block, code_lines)`: the blocks it emits and the next state.  A
fence line toggles the flag, flushing the joined buffer on toggling off;
inside a fence the line is buffered; otherwise exactly one block is
emitted. -/
def stepLine (line : List Char) (inCode : Bool) (buf : List (List Char)) :
    List Block × Bool × List (List Char) :=
  if isFenceLine line then
    if inCode then ([Block.codeBlock (List.intercalate ['\n'] buf)], false, [])
    else ([], true, [])
  else if inCode then ([], true, buf ++ [line])
  else ([classifyBlock line], false, buf)

/-- The `render_markdown` loop over the lines, threading the fence state;
reaching the end of the document while inside a fence discards the buffer
(no case emits it). -/
def renderLines : List (List Char) → Bool → List (List Char) → List Block
  | [], _, _ => []
  | l :: rest, inCode, buf =>
    (stepLine l inCode buf).1 ++
      renderLines rest (stepLine l inCode buf).2.1 (stepLine l inCode buf).2.2

/-- The `render_markdown` entry point of `src/app/panel/markdown.rs` (the
spec's `render_blocks`), as the block sequence it emits. -/
def render_blocks (markdown : List Char) : List Block :=
  renderLines (rustLines markdown) false []

/-! ### Specification-side and analysis definitions -/

/-- Number of fence-boundary lines in a line list; the fence state after
processing them from `in_code_block = false` is its parity. -/
def fenceCount (ls : List (List Char)) : Nat := ls.countP isFenceLine

/-- Byte text of a string literal, for concrete examples. -/
def strB (s : String) : List Nat := utf8Encode s.toList

/-- Modelled from the spec: §4.3's output clause describes the tokenizer's
concatenated text as the line with all recognized structural markers
removed — matched `**` pairs and the tick/`*` marker bytes disappear, an
unmatched bold opener is kept as two literal `*` bytes, and an unmatched
tick or `*` keeps only the content after the opener.  Same fuel discipline
as `inlineRuns`. -/
def stripF : Nat → List Nat → List Nat
  | 0, _ => []
  | _ + 1, [] => []
  | fuel + 1, b :: rest =>
    if b = starB ∧ rest.head? = some starB then
      match splitBold rest.tail with
      | some (content, after) => content ++ stripF fuel after
      | none => starB :: starB :: stripF fuel rest.tail
    else if b = tickB then
      match splitByte tickB rest with
      | some (content, after) => content ++ stripF fuel after
      | none => rest
    else if b = starB then
      match splitByte starB rest with
      | some (content, after) => content ++ stripF fuel after
      | none => rest
    else b :: stripF fuel rest

/-- Modelled from the spec: the marker-stripped line of §4.3's output
clause. -/
def specStripMarkers (bs : List Nat) : List Nat := stripF (bs.length + 1) bs

/-- Length of the leading run of `#` characters of a line. -/
def hashCount (line : List Char) : Nat :=
  (line.takeWhile (fun c => c = '#')).length

/-- Continuation byte of a multi-byte UTF-8 sequence. -/
def IsCont (b : Nat) : Prop := 0x80 ≤ b ∧ b ≤ 0xBF

/-- Well-formed multi-byte UTF-8 sequence: a lead byte in the 2-, 3- or
4-byte lead range followed by continuation bytes. -/
inductive MbSeq : List Nat → Prop where
  | two (b0 b1 : Nat) : 0xC2 ≤ b0 → b0 ≤ 0xDF → IsCont b1 → MbSeq [b0, b1]
  | three (b0 b1 b2 : Nat) : 0xE0 ≤ b0 → b0 ≤ 0xEF → IsCont b1 → IsCont b2 →
      MbSeq [b0, b1, b2]
  | four (b0 b1 b2 b3 : Nat) : 0xF0 ≤ b0 → b0 ≤ 0xF4 → IsCont b1 →
      IsCont b2 → IsCont b3 → MbSeq [b0, b1, b2, b3]

/-- A byte sequence that is a concatenation of whole UTF-8 character
encodings; a slice satisfying it never cuts through a multi-byte
sequence. -/
inductive Utf8Chunks : List Nat → Prop where
  | nil : Utf8Chunks []
  | ascii (b : Nat) (rest : List Nat) : b < 0x80 → Utf8Chunks rest →
      Utf8Chunks (b :: rest)
  | multi (seq rest : List Nat) : MbSeq seq → Utf8Chunks rest →
      Utf8Chunks (seq ++ rest)

/-! ### Lemmas about the inline tokenizer -/

theorem splitByte_eq {t : Nat} :
    ∀ {bs pre post : List Nat}, splitByte t bs = some (pre, post) →
      bs = pre ++ t :: post := by
  intro bs
  induction bs with
  | nil => intro pre post h; simp [splitByte] at h
  | cons a rest ih =>
    intro pre post h
    simp only [splitByte] at h
    split at h
    · next ha =>
      simp only [Option.some.injEq, Prod.mk.injEq] at h
      obtain ⟨h1, h2⟩ := h
      subst h1; subst h2; simp [ha]
    · next ha =>
      split at h
      · next pre' post' heq =>
        simp only [Option.some.injEq, Prod.mk.injEq] at h
        obtain ⟨h1, h2⟩ := h
        subst h1; subst h2
        simp [ih heq]
      · exact absurd h (by simp)

theorem splitBold_eq :
    ∀ {bs pre post : List Nat}, splitBold bs = some (pre, post) →
      bs = pre ++ starB :: starB :: post := by
  intro bs
  induction bs with
  | nil => intro pre post h; simp [splitBold] at h
  | cons a rest ih =>
    intro pre post h
    cases rest with
    | nil => simp [splitBold] at h
    | cons b rest2 =>
      simp only [splitBold] at h
      split at h
      · next ha =>
        simp only [Option.some.injEq, Prod.mk.injEq] at h
        obtain ⟨h1, h2⟩ := h
        subst h1; subst h2
        simp [ha.1, ha.2]
      · next ha =>
        split at h
        · next pre' post' heq =>
          simp only [Option.some.injEq, Prod.mk.injEq] at h
          obtain ⟨h1, h2⟩ := h
          subst h1; subst h2
          simp [ih heq]
        · exact absurd h (by simp)


theorem inlineRuns_fuel :
    ∀ (f g : Nat) (acc bs : List Nat), bs.length < f → bs.length < g →
      inlineRuns f acc bs = inlineRuns g acc bs := by
  intro f
  induction f with
  | zero => intro g acc bs hf _; exact absurd hf (Nat.not_lt_zero _)
  | succ f ih =>
    intro g acc bs hf hg
    cases g with
    | zero => exact absurd hg (Nat.not_lt_zero _)
    | succ g =>
      cases bs with
      | nil => rfl
      | cons b rest =>
        have hrf : rest.length < f := by simpa using Nat.lt_of_succ_lt_succ hf
        have hrg : rest.length < g := by simpa using Nat.lt_of_succ_lt_succ hg
        simp only [inlineRuns]
        by_cases h1 : b = starB ∧ rest.head? = some starB
        · rw [if_pos h1, if_pos h1]
          have hrest : rest ≠ [] := by
            intro hh; rw [hh] at h1; simp at h1
          have htail : rest.tail.length + 1 = rest.length :=
            by cases rest with
            | nil => exact absurd rfl hrest
            | cons x xs => simp
          cases hsb : splitBold rest.tail with
          | some pr =>
            obtain ⟨content, after⟩ := pr
            have heq := splitBold_eq hsb
            have hlen : rest.tail.length = content.length + 2 + after.length := by
              rw [heq]; simp [List.length_append]; omega
            have haf : after.length < f := by omega
            have hag : after.length < g := by omega
            simp only [hsb]
            rw [ih g [] after haf hag]
          | none =>
            simp only [hsb]
            have htf : rest.tail.length < f := by omega
            have htg : rest.tail.length < g := by omega
            rw [ih g [] rest.tail htf htg]
        · rw [if_neg h1, if_neg h1]
          by_cases h2 : b = tickB
          · rw [if_pos h2, if_pos h2]
            cases hsb : splitByte tickB rest with
            | some pr =>
              obtain ⟨content, after⟩ := pr
              have heq := splitByte_eq hsb
              have hlen : rest.length = content.length + 1 + after.length := by
                rw [heq]; simp [List.length_append]; omega
              have haf : after.length < f := by omega
              have hag : after.length < g := by omega
              simp only [hsb]
              rw [ih g [] after haf hag]
            | none => simp only [hsb]
          · rw [if_neg h2, if_neg h2]
            by_cases h3 : b = starB
            · rw [if_pos h3, if_pos h3]
              cases hsb : splitByte starB rest with
              | some pr =>
                obtain ⟨content, after⟩ := pr
                have heq := splitByte_eq hsb
                have hlen : rest.length = content.length + 1 + after.length := by
                  rw [heq]; simp [List.length_append]; omega
                have haf : after.length < f := by omega
                have hag : after.length < g := by omega
                simp only [hsb]
                rw [ih g [] after haf hag]
              | none => simp only [hsb]
            · rw [if_neg h3, if_neg h3]
              exact ih g (b :: acc) rest hrf hrg

/-- Concatenated text through a plain-text flush. -/
theorem concatRuns_flushA (acc : List Nat) (tail : List Run) :
    concatRuns (flushA acc tail) = acc.reverse ++ concatRuns tail := by
  unfold flushA
  by_cases h : acc.isEmpty
  · rw [if_pos h]
    simp [List.isEmpty_iff.mp h]
  · rw [if_neg h]
    simp [concatRuns]

/-- Concatenated text of a span run is its content. -/
theorem concatRuns_spanRun (c : List Nat) (s : Style) :
    concatRuns (spanRun c s) = c := by
  unfold spanRun
  by_cases h : c.isEmpty
  · rw [if_pos h]
    simp [concatRuns, List.isEmpty_iff.mp h]
  · rw [if_neg h]
    simp [concatRuns]

/-- Concatenated text distributes over run-list concatenation. -/
theorem concatRuns_append (xs ys : List Run) :
    concatRuns (xs ++ ys) = concatRuns xs ++ concatRuns ys := by
  simp [concatRuns]

/-- Concatenated text of a cons. -/
theorem concatRuns_cons (r : Run) (rs : List Run) :
    concatRuns (r :: rs) = r.1 ++ concatRuns rs := by
  simp [concatRuns]

/-- Concatenated text of no runs. -/
theorem concatRuns_nil : concatRuns [] = [] := rfl

/-- The concatenated text of the scanner's output is the pending plain text
followed by the marker-stripped remainder. -/
theorem concat_inlineRuns :
    ∀ (fuel : Nat) (acc bs : List Nat), bs.length < fuel →
      concatRuns (inlineRuns fuel acc bs) = acc.reverse ++ stripF fuel bs := by
  intro fuel
  induction fuel with
  | zero => intro acc bs h; exact absurd h (Nat.not_lt_zero _)
  | succ fuel ih =>
    intro acc bs h
    cases bs with
    | nil =>
      simp only [inlineRuns, stripF, concatRuns_flushA, concatRuns_nil]
    | cons b rest =>
      have hr : rest.length < fuel := by simpa using Nat.lt_of_succ_lt_succ h
      simp only [inlineRuns, stripF]
      by_cases h1 : b = starB ∧ rest.head? = some starB
      · rw [if_pos h1, if_pos h1]
        have hrest : rest ≠ [] := by
          intro hh; rw [hh] at h1; simp at h1
        have htail : rest.tail.length + 1 = rest.length := by
          cases rest with
          | nil => exact absurd rfl hrest
          | cons x xs => simp
        cases hsb : splitBold rest.tail with
        | some pr =>
          obtain ⟨content, after⟩ := pr
          have heq := splitBold_eq hsb
          have haf : after.length < fuel := by
            have := congrArg List.length heq
            simp [List.length_append] at this
            omega
          simp only [hsb, concatRuns_flushA, concatRuns_append,
            concatRuns_spanRun, ih [] after haf]
          simp
        | none =>
          have htf : rest.tail.length < fuel := by omega
          simp only [hsb, concatRuns_flushA, concatRuns_cons,
            ih [] rest.tail htf]
          simp
      · rw [if_neg h1, if_neg h1]
        by_cases h2 : b = tickB
        · rw [if_pos h2, if_pos h2]
          cases hsb : splitByte tickB rest with
          | some pr =>
            obtain ⟨content, after⟩ := pr
            have heq := splitByte_eq hsb
            have haf : after.length < fuel := by
              have := congrArg List.length heq
              simp [List.length_append] at this
              omega
            simp only [hsb, concatRuns_flushA, concatRuns_append,
              concatRuns_spanRun, ih [] after haf]
            simp
          | none =>
            simp only [hsb, concatRuns_flushA, concatRuns_spanRun]
        · rw [if_neg h2, if_neg h2]
          by_cases h3 : b = starB
          · rw [if_pos h3, if_pos h3]
            cases hsb : splitByte starB rest with
            | some pr =>
              obtain ⟨content, after⟩ := pr
              have heq := splitByte_eq hsb
              have haf : after.length < fuel := by
                have := congrArg List.length heq
                simp [List.length_append] at this
                omega
              simp only [hsb, concatRuns_flushA, concatRuns_append,
                concatRuns_spanRun, ih [] after haf]
              simp
            | none =>
              simp only [hsb, concatRuns_flushA, concatRuns_spanRun]
          · rw [if_neg h3, if_neg h3]
            rw [ih (b :: acc) rest hr]
            simp

/-! ### Lemmas about `nest_entries` -/

/-- Fuel does not matter for `nestF` once it exceeds the list length. -/
theorem nestF_fuel :
    ∀ (f g : Nat) (flat : List (Nat × List Char)) (d : Nat),
      flat.length < f → flat.length < g → nestF f flat d = nestF g flat d := by
  intro f
  induction f with
  | zero => intro g flat d hf _; exact absurd hf (Nat.not_lt_zero _)
  | succ f ih =>
    intro g flat d hf hg
    cases g with
    | zero => exact absurd hg (Nat.not_lt_zero _)
    | succ g =>
      cases flat with
      | nil => rfl
      | cons e rest =>
        obtain ⟨lvl, t⟩ := e
        have hrf : rest.length < f := by
          simpa using Nat.lt_of_succ_lt_succ hf
        have hrg : rest.length < g := by
          simpa using Nat.lt_of_succ_lt_succ hg
        simp only [nestF]
        by_cases h1 : lvl = d
        · rw [if_pos h1, if_pos h1]
          have htf := Nat.lt_of_le_of_lt
            (List.takeWhile_prefix (l := rest) (fun e => decide (d < e.1))).length_le hrf
          have htg := Nat.lt_of_le_of_lt
            (List.takeWhile_prefix (l := rest) (fun e => decide (d < e.1))).length_le hrg
          have hdf := Nat.lt_of_le_of_lt
            (List.dropWhile_suffix (l := rest) (fun e => decide (d < e.1))).length_le hrf
          have hdg := Nat.lt_of_le_of_lt
            (List.dropWhile_suffix (l := rest) (fun e => decide (d < e.1))).length_le hrg
          rw [ih g _ _ htf htg, ih g _ _ hdf hdg]
        · rw [if_neg h1, if_neg h1]
          by_cases h2 : d < lvl
          · rw [if_pos h2, if_pos h2]
            exact ih g rest d hrf hrg
          · rw [if_neg h2, if_neg h2]

/-- Defining equation of `nest_entries` on a node-opening entry. -/
theorem nest_entries_node (t : List Char) (rest : List (Nat × List Char))
    (d : Nat) :
    nest_entries ((d, t) :: rest) d =
      OutlineEntry.mk d t
          (nest_entries (rest.takeWhile (fun e => d < e.1)) (d + 1)) ::
        nest_entries (rest.dropWhile (fun e => d < e.1)) d := by
  show nestF (rest.length + 1 + 1) ((d, t) :: rest) d = _
  simp only [nestF, if_pos rfl]
  unfold nest_entries
  rw [nestF_fuel (rest.length + 1) _ _ (d + 1)
      (Nat.lt_succ_of_le (List.takeWhile_prefix _).length_le) (Nat.lt_succ_self _),
    nestF_fuel (rest.length + 1) _ _ d
      (Nat.lt_succ_of_le (List.dropWhile_suffix _).length_le) (Nat.lt_succ_self _)]
  rfl

/-- Defining equation of `nest_entries` on an orphaned deeper entry: it is
skipped, producing no node. -/
theorem nest_entries_skip (lvl : Nat) (t : List Char)
    (rest : List (Nat × List Char)) (d : Nat) (h : d < lvl) :
    nest_entries ((lvl, t) :: rest) d = nest_entries rest d := by
  show nestF (rest.length + 1 + 1) ((lvl, t) :: rest) d = _
  simp only [nestF, if_neg (Nat.ne_of_gt h), if_pos h]
  exact nestF_fuel (rest.length + 1) _ _ d (Nat.lt_succ_self _) (Nat.lt_succ_self _)

/-- A flat list consisting only of entries deeper than `d` nests to the
empty forest at depth `d`. -/
theorem nest_entries_all_deep (flat : List (Nat × List Char)) (d : Nat)
    (h : ∀ e ∈ flat, d < e.1) : nest_entries flat d = [] := by
  induction flat with
  | nil => rfl
  | cons e rest ih =>
    obtain ⟨lvl, t⟩ := e
    rw [nest_entries_skip lvl t rest d (h (lvl, t) (List.mem_cons_self _ _))]
    exact ih (fun x hx => h x (List.mem_cons_of_mem _ hx))

/-! ### Lemmas about `headingEntry` -/

/-- A single `#` followed by a character that is neither a space nor a
further `#` is not classified as a heading by the outline parser. -/
theorem headingEntry_one_hash_none (c : Char) (rest : List Char)
    (hc : c ≠ ' ') (hc' : c ≠ '#') : headingEntry ('#' :: c :: rest) = none := by
  have hb : ('#' == c) = false := by
    simp only [beq_eq_false_iff_ne, ne_eq]
    exact fun h => hc' h.symm
  have e6 : hashes 6 = ['#', '#', '#', '#', '#', '#'] := rfl
  have e5 : hashes 5 = ['#', '#', '#', '#', '#'] := rfl
  have e4 : hashes 4 = ['#', '#', '#', '#'] := rfl
  have e3 : hashes 3 = ['#', '#', '#'] := rfl
  have e2 : hashes 2 = ['#', '#'] := rfl
  have e1 : hashes 1 = ['#'] := rfl
  simp [headingEntry, e6, e5, e4, e3, e2, e1, List.isPrefixOf, hb, hc]

/-- Any line beginning with two `#` characters is classified as a heading
by the outline parser, no following space required. -/
theorem headingEntry_two_hash_some (rest : List Char) :
    (headingEntry ('#' :: '#' :: rest)).isSome = true := by
  have e2 : hashes 2 = ['#', '#'] := rfl
  have h2 : ((hashes 2).isPrefixOf ('#' :: '#' :: rest)) = true := by
    simp [e2, List.isPrefixOf]
  simp only [headingEntry]
  repeat' split
  all_goals simp_all

/-! ### Claims C1, C3, C4, C10 -/

/-- C1: `extract_outline` nests the flat heading list exactly as §4.1
step 3 describes — an entry whose level equals the current depth becomes a
node whose children are the recursively nested contiguous run of strictly
deeper entries up to the next equal-or-shallower entry, an entry deeper
than the current depth with no preceding same-depth opener produces no
node, and the concrete document of the claim yields exactly the two stated
roots. -/
theorem claim_C1 :
    (∀ (t : List Char) (rest : List (Nat × List Char)) (d : Nat),
      nest_entries ((d, t) :: rest) d =
        OutlineEntry.mk d t
            (nest_entries (rest.takeWhile (fun e => d < e.1)) (d + 1)) ::
          nest_entries (rest.dropWhile (fun e => d < e.1)) d) ∧
    (∀ (lvl : Nat) (t : List Char) (rest : List (Nat × List Char)) (d : Nat),
      d < lvl → nest_entries ((lvl, t) :: rest) d = nest_entries rest d) ∧
    extract_outline ("# Chapter 1\n## Scene 1\n## Scene 2\n# Chapter 2\n".toList) =
      [OutlineEntry.mk 1 ("Chapter 1".toList)
        [OutlineEntry.mk 2 ("Scene 1".toList) [],
         OutlineEntry.mk 2 ("Scene 2".toList) []],
       OutlineEntry.mk 1 ("Chapter 2".toList) []] :=
  ⟨nest_entries_node, nest_entries_skip, by rfl⟩

/-- Witness for C1 at a concrete input: a level-2 entry at depth 1 with no
opener is skipped. -/
theorem claim_C1_witness :
    nest_entries [(2, ['b']), (1, ['c'])] 1 = nest_entries [(1, ['c'])] 1 :=
  claim_C1.2.1 2 ['b'] [(1, ['c'])] 1 (by decide)

/-- C3 counterexample: the claim says the space-or-end-of-line requirement
holds at deeper levels too, but the Outline Extractor classifies
`"##NoSpace"` as a level-2 heading titled `"NoSpace"`. -/
theorem claim_C3_cx :
    headingEntry ("##NoSpace".toList) = some (2, "NoSpace".toList) ∧
    flatHeadings ("##NoSpace".toList) = [(2, "NoSpace".toList)] :=
  ⟨by rfl, by rfl⟩

/-- C3 (amended): the Outline Extractor requires the `#`-run to be followed
by a space or end of line only at level 1 — `"#NoSpace"` is not a heading,
and in general a `#` followed by a non-space non-`#` character is not — but
at deeper levels no following space is required: every line beginning with
`##` is classified as a heading, and `"##NoSpace"` in particular is a
level-2 heading. -/
theorem claim_C3 :
    (∀ (c : Char) (rest : List Char), c ≠ ' ' → c ≠ '#' →
      headingEntry ('#' :: c :: rest) = none) ∧
    headingEntry ("#NoSpace".toList) = none ∧
    (∀ rest : List Char, (headingEntry ('#' :: '#' :: rest)).isSome = true) ∧
    headingEntry ("##NoSpace".toList) = some (2, "NoSpace".toList) :=
  ⟨headingEntry_one_hash_none, by rfl, headingEntry_two_hash_some, by rfl⟩

/-- Witness for C3 at a concrete input. -/
theorem claim_C3_witness : headingEntry ('#' :: 'x' :: ['y']) = none :=
  claim_C3.1 'x' ['y'] (by decide) (by decide)

/-- C4 counterexample: a document whose headings are all level 2 yields the
empty outline, not a root set of deepest-available-level entries. -/
theorem claim_C4_cx :
    extract_outline ("## Scene 1\n## Scene 2".toList) = [] ∧
    flatHeadings ("## Scene 1\n## Scene 2".toList) =
      [(2, "Scene 1".toList), (2, "Scene 2".toList)] :=
  ⟨by rfl, by rfl⟩

/-- C4 (amended): for every document whose heading lines all have level
deeper than 1, `extract_outline` returns the empty outline — the deeper
entries are skipped at depth 1, not promoted to roots. -/
theorem claim_C4 (md : List Char)
    (h : ∀ e ∈ flatHeadings md, 2 ≤ e.1) : extract_outline md = [] :=
  nest_entries_all_deep _ 1 (fun e he => h e he)

/-- Witness for C4 at a concrete input. -/
theorem claim_C4_witness : extract_outline ("## A\n## B".toList) = [] :=
  claim_C4 _ (by decide)

/-- C10 counterexample: the bare deeper run `"## "` produces no root entry
at all — the outline is empty, not a single empty-titled root. -/
theorem claim_C10_cx : extract_outline ("## ".toList) = [] := by rfl

/-- C10 (amended): `"#"` and `"# "` each yield exactly one root entry with
empty title and no children; `"## "` is parsed as a flat `(2, "")` entry
but that entry is dropped by nesting, so its outline is empty. -/
theorem claim_C10 :
    extract_outline ("#".toList) = [OutlineEntry.mk 1 [] []] ∧
    extract_outline ("# ".toList) = [OutlineEntry.mk 1 [] []] ∧
    flatHeadings ("## ".toList) = [(2, [])] ∧
    extract_outline ("## ".toList) = [] :=
  ⟨by rfl, by rfl, by rfl, by rfl⟩

/-! ### Unterminated spans and the fast path -/

/-- One-step unfolding of the scanner on a nonempty remainder. -/
theorem inlineRuns_cons (fuel : Nat) (acc : List Nat) (b : Nat)
    (rest : List Nat) :
    inlineRuns (fuel + 1) acc (b :: rest) =
      if b = starB ∧ rest.head? = some starB then
        match splitBold rest.tail with
        | some (content, after) =>
          flushA acc (spanRun content Style.bold ++ inlineRuns fuel [] after)
        | none =>
          flushA acc
            (([starB, starB], Style.plain) :: inlineRuns fuel [] rest.tail)
      else if b = tickB then
        match splitByte tickB rest with
        | some (content, after) =>
          flushA acc (spanRun content Style.code ++ inlineRuns fuel [] after)
        | none => flushA acc (spanRun rest Style.code)
      else if b = starB then
        match splitByte starB rest with
        | some (content, after) =>
          flushA acc (spanRun content Style.italic ++ inlineRuns fuel [] after)
        | none => flushA acc (spanRun rest Style.italic)
      else inlineRuns fuel (b :: acc) rest := rfl

/-- Flushing an empty accumulator emits nothing. -/
theorem flushA_nil (tail : List Run) : flushA [] tail = tail := by
  simp [flushA]

/-- When a byte does not occur, it is in particular not at the head. -/
theorem splitByte_none_head {t : Nat} {bs : List Nat}
    (h : splitByte t bs = none) : bs.head? ≠ some t := by
  cases bs with
  | nil => simp
  | cons a rest =>
    simp only [splitByte] at h
    intro hc
    simp only [List.head?_cons, Option.some.injEq] at hc
    rw [if_pos hc] at h
    exact absurd h (by simp)

/-- An unmatched bold opener is emitted as two literal plain bytes and
scanning resumes right after them. -/
theorem build_inline_job_bold_unmatched (rest : List Nat)
    (h : splitBold rest = none) :
    build_inline_job (starB :: starB :: rest) =
      ([starB, starB], Style.plain) :: build_inline_job rest := by
  show inlineRuns (rest.length + 1 + 1 + 1) [] (starB :: starB :: rest) = _
  rw [inlineRuns_cons,
    if_pos (⟨rfl, rfl⟩ : starB = starB ∧ (starB :: rest).head? = some starB)]
  simp only [List.tail_cons, h, flushA_nil]
  rw [inlineRuns_fuel (rest.length + 1 + 1) (rest.length + 1) [] rest
    (Nat.lt_succ_of_lt (Nat.lt_succ_self _)) (Nat.lt_succ_self _)]
  rfl

/-- An unmatched code opener consumes the rest of the line as one code
run. -/
theorem build_inline_job_code_unmatched (rest : List Nat) (h0 : rest ≠ [])
    (h : splitByte tickB rest = none) :
    build_inline_job (tickB :: rest) = [(rest, Style.code)] := by
  show inlineRuns (rest.length + 1 + 1) [] (tickB :: rest) = _
  rw [inlineRuns_cons,
    if_neg (by simp [starB, tickB] : ¬(tickB = starB ∧ rest.head? = some starB)),
    if_pos rfl]
  simp only [h, flushA_nil, spanRun]
  rw [if_neg (by simpa using h0)]

/-- An unmatched italic opener consumes the rest of the line as one italic
run. -/
theorem build_inline_job_italic_unmatched (rest : List Nat) (h0 : rest ≠ [])
    (h : splitByte starB rest = none) :
    build_inline_job (starB :: rest) = [(rest, Style.italic)] := by
  show inlineRuns (rest.length + 1 + 1) [] (starB :: rest) = _
  rw [inlineRuns_cons, if_neg (fun hc => splitByte_none_head h hc.2),
    if_neg (by simp [starB, tickB] : ¬(starB = tickB)), if_pos rfl]
  simp only [h, flushA_nil, spanRun]
  rw [if_neg (by simpa using h0)]

/-- Marker-free text scans entirely into the plain accumulator. -/
theorem inlineRuns_no_marker :
    ∀ (fuel : Nat) (acc bs : List Nat), bs.length < fuel →
      (∀ b ∈ bs, b ≠ starB ∧ b ≠ tickB) →
      inlineRuns fuel acc bs = flushA (bs.reverse ++ acc) [] := by
  intro fuel
  induction fuel with
  | zero => intro acc bs h _; exact absurd h (Nat.not_lt_zero _)
  | succ fuel ih =>
    intro acc bs h hm
    cases bs with
    | nil => simp [inlineRuns]
    | cons b rest =>
      have hb := hm b (List.mem_cons_self _ _)
      have hr : rest.length < fuel := by simpa using Nat.lt_of_succ_lt_succ h
      rw [inlineRuns_cons, if_neg (fun hc => hb.1 hc.1), if_neg hb.2,
        if_neg hb.1]
      rw [ih (b :: acc) rest hr (fun x hx => hm x (List.mem_cons_of_mem _ hx))]
      congr 1
      simp

/-! ### Claims C6, C7, C8 -/

/-- C6: for every input line, the concatenation of the texts of the styled
runs produced by the inline tokenizer equals the line with all recognized
structural markers removed (unmatched bold openers kept as the two literal
`*` bytes), and the claim's two concrete examples hold, multi-byte text
preserved exactly. -/
theorem claim_C6 :
    (∀ bs : List Nat,
      concatRuns (build_inline_job bs) = specStripMarkers bs) ∧
    concatRuns (build_inline_job (strB "Hello **world** and *there*")) =
      strB "Hello world and there" ∧
    concatRuns (build_inline_job (strB "你好 **世界**")) = strB "你好 世界" :=
  ⟨fun bs => by
      have h := concat_inlineRuns (bs.length + 1) [] bs (Nat.lt_succ_self _)
      simpa [build_inline_job, specStripMarkers] using h,
    by rfl, by rfl⟩

/-- C7: an unmatched `**` opener becomes two literal plain characters with
scanning resuming right after them, an unmatched code or italic opener
consumes the remainder of the line as a single code (resp. italic) run,
and `"**unclosed"` round-trips verbatim. -/
theorem claim_C7 :
    (∀ rest : List Nat, splitBold rest = none →
      build_inline_job (starB :: starB :: rest) =
        ([starB, starB], Style.plain) :: build_inline_job rest) ∧
    (∀ rest : List Nat, rest ≠ [] → splitByte tickB rest = none →
      build_inline_job (tickB :: rest) = [(rest, Style.code)]) ∧
    (∀ rest : List Nat, rest ≠ [] → splitByte starB rest = none →
      build_inline_job (starB :: rest) = [(rest, Style.italic)]) ∧
    concatRuns (build_inline_job (strB "**unclosed")) = strB "**unclosed" :=
  ⟨build_inline_job_bold_unmatched, build_inline_job_code_unmatched,
    build_inline_job_italic_unmatched, by rfl⟩

/-- Witness for C7 at concrete inputs. -/
theorem claim_C7_witness :
    build_inline_job (starB :: starB :: strB "unclosed") =
      ([starB, starB], Style.plain) :: build_inline_job (strB "unclosed") ∧
    build_inline_job (tickB :: strB "code text") =
      [(strB "code text", Style.code)] ∧
    build_inline_job (starB :: strB "italic text") =
      [(strB "italic text", Style.italic)] :=
  ⟨claim_C7.1 _ (by decide), claim_C7.2.1 _ (by decide) (by decide),
    claim_C7.2.2.1 _ (by decide) (by decide)⟩

/-- C8 counterexample: on the empty line (which the renderer does reach,
e.g. as the text of a bare `"> "` blockquote), the fast path emits one
empty plain run while the full scan emits no run at all. -/
theorem claim_C8_cx : render_inline_text [] ≠ build_inline_job [] := by
  decide

/-- C8 (amended): for every nonempty line containing none of the inline
markers, the fast path's single plain run over the whole text is identical
to the output of the full scan; on the empty line the fast path emits a
single empty plain run whereas the full scan emits nothing. -/
theorem claim_C8 (bs : List Nat) (h0 : bs ≠ [])
    (h : hasInlineMarker bs = false) :
    render_inline_text bs = build_inline_job bs := by
  have hm : ∀ b ∈ bs, b ≠ starB ∧ b ≠ tickB := by
    intro b hb
    have h' : ¬(b = starB ∨ b = tickB) := by
      intro hc
      have : hasInlineMarker bs = true := by
        simp only [hasInlineMarker, List.any_eq_true]
        exact ⟨b, hb, by simpa using hc⟩
      rw [this] at h
      exact absurd h (by simp)
    exact ⟨fun hc => h' (Or.inl hc), fun hc => h' (Or.inr hc)⟩
  unfold render_inline_text
  rw [h]
  show [(bs, Style.plain)] = build_inline_job bs
  rw [build_inline_job, inlineRuns_no_marker _ [] bs (Nat.lt_succ_self _) hm]
  simp [flushA, h0]

/-- Witness for C8 at a concrete input. -/
theorem claim_C8_witness :
    render_inline_text (strB "plain text") =
      build_inline_job (strB "plain text") :=
  claim_C8 _ (by decide) (by decide)

/-! ### UTF-8 boundary safety -/

/-- Every byte of a multi-byte sequence is at least `0x80`: no ASCII byte
ever lies inside one. -/
theorem mbseq_all_high {seq : List Nat} (h : MbSeq seq) :
    ∀ b ∈ seq, 0x80 ≤ b := by
  cases h with
  | two b0 b1 h0 h1 hc1 =>
    intro b hb
    rcases List.mem_pair.mp hb with rfl | rfl
    · omega
    · exact hc1.1
  | three b0 b1 b2 h0 h1 hc1 hc2 =>
    intro b hb
    simp only [List.mem_cons, List.not_mem_nil, or_false] at hb
    rcases hb with rfl | rfl | rfl
    · omega
    · exact hc1.1
    · exact hc2.1
  | four b0 b1 b2 b3 h0 h1 hc1 hc2 hc3 =>
    intro b hb
    simp only [List.mem_cons, List.not_mem_nil, or_false] at hb
    rcases hb with rfl | rfl | rfl | rfl
    · omega
    · exact hc1.1
    · exact hc2.1
    · exact hc3.1

/-- Splitting `seq ++ rest` at an occurrence of `b` either lands inside
`seq` or decomposes along the boundary. -/
theorem append_split_cases {α : Type} :
    ∀ (seq rest xs ys : List α) (b : α), seq ++ rest = xs ++ b :: ys →
      (∃ zs, xs = seq ++ zs ∧ rest = zs ++ b :: ys) ∨ b ∈ seq := by
  intro seq
  induction seq with
  | nil =>
    intro rest xs ys b h
    exact Or.inl ⟨xs, by simp, by simpa using h⟩
  | cons s seq' ih =>
    intro rest xs ys b h
    cases xs with
    | nil =>
      simp only [List.nil_append, List.cons_append, List.cons.injEq] at h
      exact Or.inr (by simp [h.1])
    | cons x xs' =>
      simp only [List.cons_append, List.cons.injEq] at h
      obtain ⟨h1, h2⟩ := h
      rcases ih rest xs' ys b h2 with ⟨zs, hz1, hz2⟩ | hmem
      · exact Or.inl ⟨zs, by simp [h1, hz1], hz2⟩
      · exact Or.inr (List.mem_cons_of_mem _ hmem)

/-- Cutting a chunked byte sequence at an ASCII byte leaves two chunked
pieces: an ASCII byte is always a whole chunk of its own. -/
theorem utf8Chunks_split {bs : List Nat} (hc : Utf8Chunks bs) :
    ∀ (xs ys : List Nat) (b : Nat), bs = xs ++ b :: ys → b < 0x80 →
      Utf8Chunks xs ∧ Utf8Chunks ys := by
  induction hc with
  | nil =>
    intro xs ys b h _
    exact absurd h (by simp)
  | ascii a rest ha hrest ih =>
    intro xs ys b h hb
    cases xs with
    | nil =>
      simp only [List.nil_append, List.cons.injEq] at h
      exact ⟨Utf8Chunks.nil, h.2 ▸ hrest⟩
    | cons x xs' =>
      simp only [List.cons_append, List.cons.injEq] at h
      obtain ⟨h1, h2⟩ := h
      obtain ⟨hxs, hys⟩ := ih xs' ys b h2 hb
      subst h1
      exact ⟨Utf8Chunks.ascii a xs' ha hxs, hys⟩
  | multi seq rest hseq hrest ih =>
    intro xs ys b h hb
    rcases append_split_cases seq rest xs ys b h with ⟨zs, hz1, hz2⟩ | hmem
    · obtain ⟨hzs, hys⟩ := ih zs ys b hz2 hb
      exact ⟨hz1 ▸ Utf8Chunks.multi seq zs hseq hzs, hys⟩
    · have := mbseq_all_high hseq b hmem
      omega

/-- Dropping a leading ASCII byte preserves chunkedness. -/
theorem utf8Chunks_cons_ascii {b : Nat} {rest : List Nat}
    (h : Utf8Chunks (b :: rest)) (hb : b < 0x80) : Utf8Chunks rest :=
  (utf8Chunks_split h [] rest b rfl hb).2

/-- Membership through a plain-text flush. -/
theorem mem_flushA {r : Run} {acc : List Nat} {tail : List Run}
    (h : r ∈ flushA acc tail) :
    r = (acc.reverse, Style.plain) ∨ r ∈ tail := by
  unfold flushA at h
  by_cases ha : acc.isEmpty
  · rw [if_pos ha] at h
    exact Or.inr h
  · rw [if_neg ha] at h
    exact List.mem_cons.mp h

/-- Membership in a span run determines the run. -/
theorem mem_spanRun {r : Run} {c : List Nat} {s : Style}
    (h : r ∈ spanRun c s) : r = (c, s) := by
  unfold spanRun at h
  by_cases hc : c.isEmpty
  · rw [if_pos hc] at h
    exact absurd h (List.not_mem_nil r)
  · rw [if_neg hc] at h
    simpa using h

/-- Every run the scanner emits from a chunked state is chunked: the
scanner only ever cuts the byte sequence right next to the ASCII marker
bytes `*` and the tick. -/
theorem inlineRuns_chunks :
    ∀ (fuel : Nat) (acc bs : List Nat), bs.length < fuel →
      Utf8Chunks (acc.reverse ++ bs) →
      ∀ r ∈ inlineRuns fuel acc bs, Utf8Chunks r.1 := by
  intro fuel
  induction fuel with
  | zero => intro acc bs h; exact absurd h (Nat.not_lt_zero _)
  | succ fuel ih =>
    intro acc bs h hc r hr
    cases bs with
    | nil =>
      simp only [inlineRuns] at hr
      rcases mem_flushA hr with rfl | habs
      · simpa using hc
      · exact absurd habs (List.not_mem_nil r)
    | cons b rest =>
      have hlen : rest.length < fuel := by
        simpa using Nat.lt_of_succ_lt_succ h
      rw [inlineRuns_cons] at hr
      by_cases h1 : b = starB ∧ rest.head? = some starB
      · rw [if_pos h1] at hr
        obtain ⟨hsplit_acc, hsplit_rest⟩ :=
          utf8Chunks_split hc acc.reverse rest b rfl (by rw [h1.1]; norm_num [starB])
        obtain ⟨r0, rtail, rfl⟩ : ∃ r0 rtail, rest = r0 :: rtail := by
          cases rest with
          | nil => exact absurd h1.2 (by simp)
          | cons x xs => exact ⟨x, xs, rfl⟩
        have hr0 : r0 = starB := by simpa using h1.2
        have hrtail : Utf8Chunks rtail :=
          utf8Chunks_cons_ascii hsplit_rest (by rw [hr0]; norm_num [starB])
        simp only [List.tail_cons] at hr
        cases hsb : splitBold rtail with
        | some pr =>
          obtain ⟨content, after⟩ := pr
          rw [hsb] at hr
          have heq := splitBold_eq hsb
          have hafterlen : after.length < fuel := by
            have hl := congrArg List.length heq
            simp [List.length_append] at hl
            simp at h
            omega
          obtain ⟨hcontent, hstarafter⟩ :=
            utf8Chunks_split hrtail content (starB :: after) starB
              (by simpa using heq) (by norm_num [starB])
          have hafter : Utf8Chunks after :=
            utf8Chunks_cons_ascii hstarafter (by norm_num [starB])
          rcases mem_flushA hr with rfl | hmem
          · exact hsplit_acc
          · rcases List.mem_append.mp hmem with hsp | hrec
            · rw [mem_spanRun hsp]
              exact hcontent
            · exact ih [] after hafterlen (by simpa using hafter) r hrec
        | none =>
          rw [hsb] at hr
          rcases mem_flushA hr with rfl | hmem
          · exact hsplit_acc
          · rcases List.mem_cons.mp hmem with rfl | hrec
            · exact Utf8Chunks.ascii _ _ (by norm_num [starB])
                (Utf8Chunks.ascii _ _ (by norm_num [starB]) Utf8Chunks.nil)
            · have hrtaillen : rtail.length < fuel := by
                simp at h
                omega
              exact ih [] rtail hrtaillen (by simpa using hrtail) r hrec
      · rw [if_neg h1] at hr
        by_cases h2 : b = tickB
        · rw [if_pos h2] at hr
          obtain ⟨hsplit_acc, hsplit_rest⟩ :=
            utf8Chunks_split hc acc.reverse rest b rfl
              (by rw [h2]; norm_num [tickB])
          cases hsb : splitByte tickB rest with
          | some pr =>
            obtain ⟨content, after⟩ := pr
            rw [hsb] at hr
            have heq := splitByte_eq hsb
            have hafterlen : after.length < fuel := by
              have := congrArg List.length heq
              simp [List.length_append] at this
              omega
            obtain ⟨hcontent, hafter⟩ :=
              utf8Chunks_split hsplit_rest content after tickB heq
                (by norm_num [tickB])
            rcases mem_flushA hr with rfl | hmem
            · exact hsplit_acc
            · rcases List.mem_append.mp hmem with hsp | hrec
              · rw [mem_spanRun hsp]
                exact hcontent
              · exact ih [] after hafterlen (by simpa using hafter) r hrec
          | none =>
            rw [hsb] at hr
            rcases mem_flushA hr with rfl | hmem
            · exact hsplit_acc
            · rw [mem_spanRun hmem]
              exact hsplit_rest
        · rw [if_neg h2] at hr
          by_cases h3 : b = starB
          · rw [if_pos h3] at hr
            obtain ⟨hsplit_acc, hsplit_rest⟩ :=
              utf8Chunks_split hc acc.reverse rest b rfl
                (by rw [h3]; norm_num [starB])
            cases hsb : splitByte starB rest with
            | some pr =>
              obtain ⟨content, after⟩ := pr
              rw [hsb] at hr
              have heq := splitByte_eq hsb
              have hafterlen : after.length < fuel := by
                have := congrArg List.length heq
                simp [List.length_append] at this
                omega
              obtain ⟨hcontent, hafter⟩ :=
                utf8Chunks_split hsplit_rest content after starB heq
                  (by norm_num [starB])
              rcases mem_flushA hr with rfl | hmem
              · exact hsplit_acc
              · rcases List.mem_append.mp hmem with hsp | hrec
                · rw [mem_spanRun hsp]
                  exact hcontent
                · exact ih [] after hafterlen (by simpa using hafter) r hrec
            | none =>
              rw [hsb] at hr
              rcases mem_flushA hr with rfl | hmem
              · exact hsplit_acc
              · rw [mem_spanRun hmem]
                exact hsplit_rest
          · rw [if_neg h3] at hr
            have hc' : Utf8Chunks ((b :: acc).reverse ++ rest) := by
              simpa using hc
            exact ih (b :: acc) rest hlen hc' r hr

/-- The encoding of one scalar value prepends a whole chunk. -/
theorem charUtf8_chunks_append (n : Nat) (hn : n < 0x110000)
    (rest : List Nat) (h : Utf8Chunks rest) :
    Utf8Chunks (charUtf8 n ++ rest) := by
  unfold charUtf8
  by_cases h1 : n < 0x80
  · rw [if_pos h1]
    exact Utf8Chunks.ascii n rest h1 h
  · rw [if_neg h1]
    by_cases h2 : n < 0x800
    · rw [if_pos h2]
      exact Utf8Chunks.multi _ rest
        (MbSeq.two _ _ (by omega) (by omega) ⟨by omega, by omega⟩) h
    · rw [if_neg h2]
      by_cases h3 : n < 0x10000
      · rw [if_pos h3]
        exact Utf8Chunks.multi _ rest
          (MbSeq.three _ _ _ (by omega) (by omega) ⟨by omega, by omega⟩
            ⟨by omega, by omega⟩) h
      · rw [if_neg h3]
        exact Utf8Chunks.multi _ rest
          (MbSeq.four _ _ _ _ (by omega) (by omega) ⟨by omega, by omega⟩
            ⟨by omega, by omega⟩ ⟨by omega, by omega⟩) h

/-- Unicode scalar values are below `0x110000`. -/
theorem char_toNat_lt (c : Char) : c.toNat < 0x110000 := by
  have h := c.valid
  unfold UInt32.isValidChar Nat.isValidChar at h
  rcases h with h | h
  · calc c.toNat < 0xd800 := h
      _ < 0x110000 := by norm_num
  · exact h.2

/-- The byte encoding of any string is chunked. -/
theorem utf8Encode_chunks (s : List Char) : Utf8Chunks (utf8Encode s) := by
  induction s with
  | nil => exact Utf8Chunks.nil
  | cons c cs ih =>
    simpa [utf8Encode] using
      charUtf8_chunks_append c.toNat (char_toNat_lt c) _ (by simpa [utf8Encode] using ih)

/-! ### Claim C5 -/

/-- C5: the embedded `extract_outline` and `build_inline_job` are total
functions, and the tokenizer's byte-indexed slicing never cuts through a
multi-byte UTF-8 sequence: every styled run produced from the byte encoding
of any string (and more generally from any chunked byte sequence) is itself
a concatenation of whole UTF-8 character encodings. -/
theorem claim_C5 :
    (∀ s : List Char, ∀ r ∈ build_inline_job (utf8Encode s),
      Utf8Chunks r.1) ∧
    (∀ bs : List Nat, Utf8Chunks bs → ∀ r ∈ build_inline_job bs,
      Utf8Chunks r.1) :=
  have h2 : ∀ bs : List Nat, Utf8Chunks bs →
      ∀ r ∈ build_inline_job bs, Utf8Chunks r.1 := fun bs hb r hr =>
    inlineRuns_chunks (bs.length + 1) [] bs (Nat.lt_succ_self _)
      (by simpa using hb) r hr
  ⟨fun s r hr => h2 _ (utf8Encode_chunks s) r hr, h2⟩

/-- Witness for C5 at a concrete input: the bold run sliced out of the
multi-byte example line is chunked. -/
theorem claim_C5_witness : Utf8Chunks (strB "世界") :=
  claim_C5.1 ("你好 **世界**".toList) (strB "世界", Style.bold) (by decide)

/-! ### Claim C9 -/

theorem renderLines_unterminated (ls : List (List Char)) :
    ∀ buf : List (List Char), (∀ l ∈ ls, isFenceLine l = false) →
      renderLines ls true buf = [] := by
  induction ls with
  | nil => intro buf _; rfl
  | cons l rest ih =>
    intro buf h
    have hl := h l (List.mem_cons_self _ _)
    simp only [renderLines, stepLine, hl]
    simp only [Bool.false_eq_true, if_false, if_true]
    exact ih _ (fun x hx => h x (List.mem_cons_of_mem _ hx))

theorem renderLines_append_fence (f : List Char) (ls₂ : List (List Char))
    (hf : isFenceLine f = true)
    (hnf : ∀ l ∈ ls₂, isFenceLine l = false) :
    ∀ (ls₁ : List (List Char)) (inCode : Bool) (buf : List (List Char)),
      (fenceCount ls₁ + (if inCode then 1 else 0)) % 2 = 0 →
      renderLines (ls₁ ++ f :: ls₂) inCode buf = renderLines ls₁ inCode buf := by
  intro ls₁
  induction ls₁ with
  | nil =>
    intro inCode buf h
    have hic : inCode = false := by
      cases inCode
      · rfl
      · simp [fenceCount] at h
    subst hic
    show renderLines (f :: ls₂) false buf = []
    simp only [renderLines, stepLine, hf]
    simp only [if_true, Bool.false_eq_true, if_false]
    exact renderLines_unterminated ls₂ [] hnf
  | cons l rest ih =>
    intro inCode buf h
    have hcnt : fenceCount (l :: rest) =
        fenceCount rest + (if isFenceLine l then 1 else 0) := by
      simp [fenceCount, List.countP_cons]
    simp only [List.cons_append, renderLines]
    congr 1
    by_cases hfl : isFenceLine l = true
    · cases inCode with
      | true =>
        simp only [stepLine, hfl, if_true]
        exact ih false [] (by rw [hcnt] at h; simp [hfl] at h ⊢; omega)
      | false =>
        simp only [stepLine, hfl, if_true, Bool.false_eq_true, if_false]
        exact ih true [] (by rw [hcnt] at h; simp [hfl] at h ⊢; omega)
    · have hfl' : isFenceLine l = false := by
        cases hq : isFenceLine l
        · rfl
        · exact absurd hq hfl
      cases inCode with
      | true =>
        simp only [stepLine, hfl', Bool.false_eq_true, if_false, if_true]
        exact ih true (buf ++ [l]) (by rw [hcnt] at h; simp [hfl'] at h ⊢; omega)
      | false =>
        simp only [stepLine, hfl', Bool.false_eq_true, if_false]
        exact ih false buf (by rw [hcnt] at h; simp [hfl'] at h ⊢; omega)

/-- C9: a fence opened from outside a code block and never closed discards
everything after it — the lines buffered inside the unterminated fence
produce no block of any kind, and the blocks of the whole document are
exactly those of the document truncated at the opening fence line.  (The
parity hypothesis says the fence state is `false` when the opening fence is
reached.) -/
theorem claim_C9 :
    (∀ (ls₁ ls₂ : List (List Char)) (f : List Char),
      isFenceLine f = true → (∀ l ∈ ls₂, isFenceLine l = false) →
      fenceCount ls₁ % 2 = 0 →
      renderLines (ls₁ ++ f :: ls₂) false [] = renderLines ls₁ false [] ∧
      (∀ buf : List (List Char), renderLines ls₂ true buf = [])) ∧
    render_blocks ("a\n```\nhidden\nmore".toList) =
      render_blocks ("a".toList) :=
  ⟨fun ls₁ ls₂ f hf hnf hbal =>
    ⟨renderLines_append_fence f ls₂ hf hnf ls₁ false [] (by simpa using hbal),
      fun buf => renderLines_unterminated ls₂ buf hnf⟩,
    by rfl⟩

/-- Witness for C9 at a concrete document: `"a\n\x60\x60\x60\nhidden"`
renders exactly like `"a"`. -/
theorem claim_C9_witness :
    renderLines ["a".toList, "```".toList, "hidden".toList] false [] =
      renderLines ["a".toList] false [] :=
  (claim_C9.1 ["a".toList] ["hidden".toList] ("```".toList) (by decide)
    (by decide) (by decide)).1

/-! ### Claim C2: renderer vs outline heading classification -/

theorem hashCount_cons_hash (rest : List Char) :
    hashCount ('#' :: rest) = hashCount rest + 1 := by
  simp [hashCount, List.takeWhile_cons]

theorem hashCount_cons_other {c : Char} (rest : List Char) (hc : c ≠ '#') :
    hashCount (c :: rest) = 0 := by
  simp [hashCount, List.takeWhile_cons, hc]

theorem hashes_isPrefixOf_iff :
    ∀ (n : Nat) (line : List Char),
      ((hashes n).isPrefixOf line = true) ↔ n ≤ hashCount line := by
  intro n
  induction n with
  | zero => intro line; simp [hashes, List.isPrefixOf]
  | succ n ih =>
    intro line
    cases line with
    | nil =>
      simp [hashes, List.replicate_succ, List.isPrefixOf, hashCount]
    | cons c rest =>
      by_cases hc : c = '#'
      · subst hc
        have h2 : (hashes (n + 1)).isPrefixOf ('#' :: rest) =
            (hashes n).isPrefixOf rest := by
          simp [hashes, List.replicate_succ, List.isPrefixOf]
        rw [hashCount_cons_hash, h2, ih rest]
        omega
      · have hb : ('#' == c) = false := by
          simp only [beq_eq_false_iff_ne, ne_eq]
          exact fun h => hc h.symm
        have h2 : (hashes (n + 1)).isPrefixOf (c :: rest) = false := by
          simp [hashes, List.replicate_succ, List.isPrefixOf, hb]
        rw [hashCount_cons_other rest hc, h2]
        simp
  
theorem drop_head_of_lt_hashCount :
    ∀ (n : Nat) (line : List Char), n < hashCount line →
      (line.drop n).head? = some '#' := by
  intro n
  induction n with
  | zero =>
    intro line h
    cases line with
    | nil => simp [hashCount] at h
    | cons c rest =>
      by_cases hc : c = '#'
      · simp [hc]
      · rw [hashCount_cons_other rest hc] at h
        omega
  | succ n ih =>
    intro line h
    cases line with
    | nil => simp [hashCount] at h
    | cons c rest =>
      by_cases hc : c = '#'
      · subst hc
        rw [hashCount_cons_hash] at h
        simpa using ih rest (Nat.lt_of_succ_lt_succ h)
      · rw [hashCount_cons_other rest hc] at h
        omega


theorem strip_heading_some {line : List Char} {n : Nat} {r : List Char}
    (h : strip_heading line n = some r) :
    hashCount line = n ∧
    ((line.drop n).head? = some ' ' ∨ line.drop n = []) := by
  unfold strip_heading at h
  split at h
  · next hpre =>
    have hn : n ≤ hashCount line := (hashes_isPrefixOf_iff n line).mp hpre
    split at h
    · next hsp =>
      refine ⟨?_, Or.inl hsp⟩
      by_contra hne
      have hlt : n < hashCount line := lt_of_le_of_ne hn (fun hh => hne hh.symm)
      have hd := drop_head_of_lt_hashCount n line hlt
      rw [hd] at hsp
      simp at hsp
    · split at h
      · next hnil =>
        have hnil' : line.drop n = [] := by simpa using hnil
        refine ⟨?_, Or.inr hnil'⟩
        by_contra hne
        have hlt : n < hashCount line := lt_of_le_of_ne hn (fun hh => hne hh.symm)
        have hd := drop_head_of_lt_hashCount n line hlt
        rw [hnil'] at hd
        simp at hd
      · exact absurd h (by simp)
  · exact absurd h (by simp)

theorem headingEntry_of_hashCount {line : List Char} {n : Nat}
    (hn : hashCount line = n) (hlo : 2 ≤ n) (hhi : n ≤ 6) :
    headingEntry line = some (n, rustTrim (line.drop n)) := by
  have hp : ∀ k, ((hashes k).isPrefixOf line = true) ↔ k ≤ n := by
    intro k
    rw [hashes_isPrefixOf_iff, hn]
  unfold headingEntry
  interval_cases n
  · rw [if_neg (by simp [hp]), if_neg (by simp [hp]), if_neg (by simp [hp]),
      if_neg (by simp [hp]), if_pos ((hp 2).mpr (by omega))]
  · rw [if_neg (by simp [hp]), if_neg (by simp [hp]), if_neg (by simp [hp]),
      if_pos ((hp 3).mpr (by omega))]
  · rw [if_neg (by simp [hp]), if_neg (by simp [hp]),
      if_pos ((hp 4).mpr (by omega))]
  · rw [if_neg (by simp [hp]), if_pos ((hp 5).mpr (by omega))]
  · rw [if_pos ((hp 6).mpr (by omega))]

theorem headingEntry_of_hashCount_one {line : List Char}
    (hn : hashCount line = 1)
    (hcond : (line.drop 1).head? = some ' ' ∨ line.drop 1 = []) :
    headingEntry line = some (1, rustTrim (line.drop 1)) := by
  have hp : ∀ k, ((hashes k).isPrefixOf line = true) ↔ k ≤ 1 := by
    intro k
    rw [hashes_isPrefixOf_iff, hn]
  unfold headingEntry
  rw [if_neg (by simp [hp]), if_neg (by simp [hp]), if_neg (by simp [hp]),
    if_neg (by simp [hp]), if_neg (by simp [hp]),
    if_pos ((hp 1).mpr (by omega))]
  have hb : ((line.drop 1).head? = some ' ' || (line.drop 1).isEmpty) = true := by
    rcases hcond with hcase | hcase
    · simp only [hcase]
      simp
    · simp only [hcase]
      simp
  rw [if_pos hb]

/-- C2 counterexample: the biconditional fails — the Outline Extractor
classifies `"##NoSpace"` as a level-2 heading while the Block Renderer's
heading chain rejects it. -/
theorem claim_C2_cx :
    (headingEntry ("##NoSpace".toList)).map Prod.fst = some 2 ∧
    rendererHeading ("##NoSpace".toList) = none :=
  ⟨by rfl, by rfl⟩

/-- C2 (amended): agreement holds in one direction only — every line the
Block Renderer classifies as a level-`n` heading is classified as a
level-`n` heading by the Outline Extractor, with the trimmed remainder as
title; the converse fails for levels 2-6 without a following space (and for
runs of seven or more `#`), which the outline accepts and the renderer does
not. -/
theorem claim_C2 (line : List Char) (n : Nat) (r : List Char)
    (h : rendererHeading line = some (n, r)) :
    headingEntry line = some (n, rustTrim (line.drop n)) := by
  unfold rendererHeading at h
  cases h1 : strip_heading line 1 with
  | some r1 =>
    simp only [h1, Option.some.injEq, Prod.mk.injEq] at h
    obtain ⟨hn, hr⟩ := h
    subst hn
    obtain ⟨hcnt, hcond⟩ := strip_heading_some h1
    exact headingEntry_of_hashCount_one hcnt hcond
  | none =>
    simp only [h1] at h
    cases h2 : strip_heading line 2 with
    | some r2 =>
      simp only [h2, Option.some.injEq, Prod.mk.injEq] at h
      obtain ⟨hn, hr⟩ := h
      subst hn
      obtain ⟨hcnt, _⟩ := strip_heading_some h2
      exact headingEntry_of_hashCount hcnt (by omega) (by omega)
    | none =>
      simp only [h2] at h
      cases h3 : strip_heading line 3 with
      | some r3 =>
        simp only [h3, Option.some.injEq, Prod.mk.injEq] at h
        obtain ⟨hn, hr⟩ := h
        subst hn
        obtain ⟨hcnt, _⟩ := strip_heading_some h3
        exact headingEntry_of_hashCount hcnt (by omega) (by omega)
      | none =>
        simp only [h3] at h
        cases h4 : strip_heading line 4 with
        | some r4 =>
          simp only [h4, Option.some.injEq, Prod.mk.injEq] at h
          obtain ⟨hn, hr⟩ := h
          subst hn
          obtain ⟨hcnt, _⟩ := strip_heading_some h4
          exact headingEntry_of_hashCount hcnt (by omega) (by omega)
        | none =>
          simp only [h4] at h
          cases h5 : strip_heading line 5 with
          | some r5 =>
            simp only [h5, Option.some.injEq, Prod.mk.injEq] at h
            obtain ⟨hn, hr⟩ := h
            subst hn
            obtain ⟨hcnt, _⟩ := strip_heading_some h5
            exact headingEntry_of_hashCount hcnt (by omega) (by omega)
          | none =>
            simp only [h5] at h
            cases h6 : strip_heading line 6 with
            | some r6 =>
              simp only [h6, Option.some.injEq, Prod.mk.injEq] at h
              obtain ⟨hn, hr⟩ := h
              subst hn
              obtain ⟨hcnt, _⟩ := strip_heading_some h6
              exact headingEntry_of_hashCount hcnt (by omega) (by omega)
            | none =>
              simp only [h6] at h
              exact absurd h (by simp)

/-- Witness for C2 at a concrete input. -/
theorem claim_C2_witness :
    headingEntry ("### T".toList) =
      some (3, rustTrim (("### T".toList).drop 3)) :=
  claim_C2 ("### T".toList) 3 ("T".toList) (by rfl)

end TextTool
